import Mathlib

/-!
UnicodeConvAtl: a shallow embedding of the UTF-16/UTF-8 conversion functions

This file embeds the two conversion functions of `UnicodeConvAtl.h`
(`ToUtf8`, converting UTF-16 to UTF-8, and `ToUtf16`, converting UTF-8 to
UTF-16) and proves the testable properties of their specification.

UTF-16 code units are modelled as natural numbers below `0x10000`, UTF-8 code
units as natural numbers below `0x100`, strings as lists of code units, and
Unicode code points as natural numbers.  A conversion returns
`Option (List Nat)`: `none` models the `AtlThrowLastWin32()` throw
(`ConversionError`), `some out` a successful return of the string `out`.

The C++ functions orchestrate the Windows codec (`WideCharToMultiByte` /
`MultiByteToWideChar` on `CP_UTF8` with the strict flags
`WC_ERR_INVALID_CHARS` / `MB_ERR_INVALID_CHARS`).  That codec is not part of
the repository, so it is modelled here from the specification's validation
rules (strict Unicode conformance: reject unpaired surrogates in UTF-16;
reject overlong encodings, invalid continuation bytes, encoded surrogates and
values beyond U+10FFFF in UTF-8), with the Win32 return convention: a call
returns the code-unit count on success and `0` on failure.
-/

namespace UnicodeConvAtl

/-- A Unicode scalar value: a code point that is not a surrogate and is at
most U+10FFFF. -/
def IsScalar (cp : Nat) : Prop :=
  cp < 0x110000 ∧ (cp < 0xD800 ∨ 0xE000 ≤ cp)

instance (cp : Nat) : Decidable (IsScalar cp) := by
  unfold IsScalar; infer_instance

/-- Modelled from the spec: strict UTF-16 decoding, as performed internally by
`WideCharToMultiByte(CP_UTF8, WC_ERR_INVALID_CHARS, ...)`.  Every high
surrogate must be immediately followed by a low surrogate; unpaired surrogates
(and values that are not 16-bit code units) are rejected. -/
def utf16Decode : List Nat → Option (List Nat)
  | [] => some []
  | u :: rest =>
      if u < 0xD800 ∨ (0xE000 ≤ u ∧ u < 0x10000) then
        (utf16Decode rest).map (u :: ·)
      else if 0xD800 ≤ u ∧ u < 0xDC00 then
        match rest with
        | l :: rest2 =>
          if 0xDC00 ≤ l ∧ l < 0xE000 then
            (utf16Decode rest2).map
              (fun cs => (0x10000 + (u - 0xD800) * 0x400 + (l - 0xDC00)) :: cs)
          else none
        | [] => none
      else none

/-- UTF-16 encoding of a single Unicode scalar value: one code unit for the
Basic Multilingual Plane, a high/low surrogate pair above it. -/
def utf16EncodeCp (cp : Nat) : List Nat :=
  if cp < 0x10000 then [cp]
  else [0xD800 + (cp - 0x10000) / 0x400, 0xDC00 + (cp - 0x10000) % 0x400]

/-- UTF-16 encoding of a sequence of Unicode scalar values. -/
def utf16Encode : List Nat → List Nat
  | [] => []
  | cp :: cps => utf16EncodeCp cp ++ utf16Encode cps

/-- UTF-8 encoding of a single Unicode scalar value (1 to 4 bytes). -/
def utf8EncodeCp (cp : Nat) : List Nat :=
  if cp < 0x80 then [cp]
  else if cp < 0x800 then [0xC0 + cp / 0x40, 0x80 + cp % 0x40]
  else if cp < 0x10000 then
    [0xE0 + cp / 0x1000, 0x80 + cp / 0x40 % 0x40, 0x80 + cp % 0x40]
  else
    [0xF0 + cp / 0x40000, 0x80 + cp / 0x1000 % 0x40,
     0x80 + cp / 0x40 % 0x40, 0x80 + cp % 0x40]

/-- UTF-8 encoding of a sequence of Unicode scalar values. -/
def utf8Encode : List Nat → List Nat
  | [] => []
  | cp :: cps => utf8EncodeCp cp ++ utf8Encode cps

/-- A UTF-8 continuation byte, in the range `0x80`–`0xBF`. -/
def IsCont (b : Nat) : Prop := 0x80 ≤ b ∧ b < 0xC0

instance (b : Nat) : Decidable (IsCont b) := by
  unfold IsCont; infer_instance

mutual

/-- Modelled from the spec: strict UTF-8 decoding, as performed internally by
`MultiByteToWideChar(CP_UTF8, MB_ERR_INVALID_CHARS, ...)`.  Rejects overlong
encodings (`0xC0`/`0xC1` leads, `0xE0` with a second byte below `0xA0`,
`0xF0` with a second byte below `0x90`), stray or invalid continuation bytes,
encoded surrogates (`0xED` with a second byte of `0xA0` or above) and values
beyond U+10FFFF (leads above `0xF4`, `0xF4` with a second byte of `0x90` or
above). -/
def utf8Decode : List Nat → Option (List Nat)
  | [] => some []
  | b1 :: t1 =>
      if b1 < 0x80 then (utf8Decode t1).map (b1 :: ·)
      else if b1 < 0xC2 then none
      else if b1 < 0xE0 then utf8DecodeTail2 b1 t1
      else if b1 < 0xF0 then utf8DecodeTail3 b1 t1
      else if b1 < 0xF5 then utf8DecodeTail4 b1 t1
      else none

/-- Continuation of `utf8Decode` after a two-byte lead `b1` (`0xC2`–`0xDF`). -/
def utf8DecodeTail2 (b1 : Nat) : List Nat → Option (List Nat)
  | b2 :: t2 =>
      if IsCont b2 then
        (utf8Decode t2).map (fun cs => ((b1 - 0xC0) * 0x40 + (b2 - 0x80)) :: cs)
      else none
  | [] => none

/-- Continuation of `utf8Decode` after a three-byte lead `b1` (`0xE0`–`0xEF`). -/
def utf8DecodeTail3 (b1 : Nat) : List Nat → Option (List Nat)
  | b2 :: b3 :: t3 =>
      if IsCont b2 ∧ IsCont b3 ∧ (0xE0 < b1 ∨ 0xA0 ≤ b2) ∧ (b1 ≠ 0xED ∨ b2 < 0xA0) then
        (utf8Decode t3).map
          (fun cs => ((b1 - 0xE0) * 0x1000 + (b2 - 0x80) * 0x40 + (b3 - 0x80)) :: cs)
      else none
  | [] => none
  | [_] => none

/-- Continuation of `utf8Decode` after a four-byte lead `b1` (`0xF0`–`0xF4`). -/
def utf8DecodeTail4 (b1 : Nat) : List Nat → Option (List Nat)
  | b2 :: b3 :: b4 :: t4 =>
      if IsCont b2 ∧ IsCont b3 ∧ IsCont b4 ∧ (0xF0 < b1 ∨ 0x90 ≤ b2) ∧
         (b1 ≠ 0xF4 ∨ b2 < 0x90) then
        (utf8Decode t4).map
          (fun cs => ((b1 - 0xF0) * 0x40000 + (b2 - 0x80) * 0x1000 +
                      (b3 - 0x80) * 0x40 + (b4 - 0x80)) :: cs)
      else none
  | [] => none
  | [_] => none
  | [_, _] => none

end

/-- Modelled from the spec: `WideCharToMultiByte(CP_UTF8, WC_ERR_INVALID_CHARS,
utf16, utf16.length, buffer, destSize, nullptr, nullptr)`.  Returns the pair
of the Win32 result (the required byte count when `destSize = 0`, the written
byte count on a successful fill, `0` on failure) and the bytes written to the
destination buffer. -/
def wideCharToMultiByte (utf16 : List Nat) (destSize : Nat) : Nat × List Nat :=
  match utf16Decode utf16 with
  | none => (0, [])
  | some cps =>
      let out := utf8Encode cps
      if destSize = 0 then (out.length, [])
      else if out.length ≤ destSize then (out.length, out)
      else (0, [])

/-- Modelled from the spec: `MultiByteToWideChar(CP_UTF8, MB_ERR_INVALID_CHARS,
utf8, utf8.length, buffer, destSize)`.  Returns the pair of the Win32 result
(the required code-unit count when `destSize = 0`, the written code-unit count
on a successful fill, `0` on failure) and the code units written to the
destination buffer. -/
def multiByteToWideChar (utf8 : List Nat) (destSize : Nat) : Nat × List Nat :=
  match utf8Decode utf8 with
  | none => (0, [])
  | some cps =>
      let out := utf16Encode cps
      if destSize = 0 then (out.length, [])
      else if out.length ≤ destSize then (out.length, out)
      else (0, [])

/-- The tail of `ToUtf8` (UnicodeConvAtl.h lines 122–153), given the measured
byte count `utf8Length` and the fill call's result: `GetBuffer(utf8Length)`
hands out a buffer of capacity `utf8Length` (modelled as zero-filled), the
fill call writes `written` into its front, `result == 0` throws, and
`ReleaseBuffer(utf8Length)` finalizes the string to exactly `utf8Length`
code units. -/
def toUtf8Finish (utf8Length result : Nat) (written : List Nat) : Option (List Nat) :=
  if result = 0 then none
  else some ((written ++ (List.replicate utf8Length 0).drop written.length).take utf8Length)

/-- The tail of `ToUtf16` (UnicodeConvAtl.h lines 190–221), given the input
byte count `utf8Length`, the measured code-unit count `utf16Length` and the
fill call's result: `GetBuffer(utf8Length)` hands out a buffer of capacity
`utf8Length` (modelled as zero-filled), the fill call writes `written` into
its front, `result == 0` throws, and `ReleaseBuffer(utf16Length)` finalizes
the string to exactly `utf16Length` code units. -/
def toUtf16Finish (utf8Length utf16Length result : Nat) (written : List Nat) :
    Option (List Nat) :=
  if result = 0 then none
  else some ((written ++ (List.replicate utf8Length 0).drop written.length).take utf16Length)

/-- Observable codec interactions of one conversion call: how many measure
calls (`destSize = 0`) and fill calls were made, the capacity passed to
`CString::GetBuffer` and the destination size passed to the fill call, when
those points were reached. -/
structure ConvTrace where
  measureCalls : Nat
  fillCalls : Nat
  getBufferArg : Option Nat
  fillDestSize : Option Nat
deriving Repr, DecidableEq

/-- `UnicodeConvAtl::ToUtf8` (UnicodeConvAtl.h lines 91–154) together with its
codec-interaction trace.  Empty input returns an empty string at once; then a
measure call obtains `utf8Length`, `utf8Length == 0` throws, `GetBuffer`
obtains a buffer of `utf8Length` chars, the fill call converts into it with
destination size `utf8Length`, `result == 0` throws, and `ReleaseBuffer`
finalizes to `utf8Length`. -/
def ToUtf8Traced (utf16 : List Nat) : Option (List Nat) × ConvTrace :=
  if utf16 = [] then (some [], ⟨0, 0, none, none⟩)
  else
    let utf8Length := (wideCharToMultiByte utf16 0).1
    if utf8Length = 0 then (none, ⟨1, 0, none, none⟩)
    else
      let fill := wideCharToMultiByte utf16 utf8Length
      (toUtf8Finish utf8Length fill.1 fill.2, ⟨1, 1, some utf8Length, some utf8Length⟩)

/-- `UnicodeConvAtl::ToUtf8`: convert from UTF-16 to UTF-8, `none` modelling a
thrown `ConversionError`. -/
def ToUtf8 (utf16 : List Nat) : Option (List Nat) :=
  (ToUtf8Traced utf16).1

/-- `UnicodeConvAtl::ToUtf16` (UnicodeConvAtl.h lines 161–222) together with
its codec-interaction trace.  Empty input returns an empty string at once;
then a measure call obtains `utf16Length`, `utf16Length == 0` throws,
`GetBuffer` obtains a buffer of `utf8Length` (the input byte count!) wchar_ts,
the fill call converts into it with destination size `utf16Length`,
`result == 0` throws, and `ReleaseBuffer` finalizes to `utf16Length`. -/
def ToUtf16Traced (utf8 : List Nat) : Option (List Nat) × ConvTrace :=
  if utf8 = [] then (some [], ⟨0, 0, none, none⟩)
  else
    let utf8Length := utf8.length
    let utf16Length := (multiByteToWideChar utf8 0).1
    if utf16Length = 0 then (none, ⟨1, 0, none, none⟩)
    else
      let fill := multiByteToWideChar utf8 utf16Length
      (toUtf16Finish utf8Length utf16Length fill.1 fill.2,
       ⟨1, 1, some utf8Length, some utf16Length⟩)

/-- `UnicodeConvAtl::ToUtf16`: convert from UTF-8 to UTF-16, `none` modelling
a thrown `ConversionError`. -/
def ToUtf16 (utf8 : List Nat) : Option (List Nat) :=
  (ToUtf16Traced utf8).1

/-- A well-formed UTF-16 sequence: strict UTF-16 decoding succeeds. -/
def WellFormedUtf16 (s : List Nat) : Prop := (utf16Decode s).isSome

/-- A well-formed UTF-8 sequence: strict UTF-8 decoding succeeds. -/
def WellFormedUtf8 (b : List Nat) : Prop := (utf8Decode b).isSome

instance (s : List Nat) : Decidable (WellFormedUtf16 s) := by
  unfold WellFormedUtf16; infer_instance

instance (b : List Nat) : Decidable (WellFormedUtf8 b) := by
  unfold WellFormedUtf8; infer_instance

/-- The sequence contains an unpaired high surrogate: scanning left to right
and pairing each high surrogate (`0xD800`–`0xDBFF`) with an immediately
following low surrogate (`0xDC00`–`0xDFFF`), some high surrogate is not
followed by a low surrogate. -/
def containsUnpairedHigh : List Nat → Bool
  | [] => false
  | [u] => decide (0xD800 ≤ u ∧ u < 0xDC00)
  | u :: l :: rest =>
      if 0xD800 ≤ u ∧ u < 0xDC00 then
        if 0xDC00 ≤ l ∧ l < 0xE000 then containsUnpairedHigh rest
        else true
      else containsUnpairedHigh (l :: rest)

/-- The byte sequence contains an overlong encoding at some position: a
`0xC0`/`0xC1` lead byte, a `0xE0` lead byte whose next byte is a continuation
byte below `0xA0`, or a `0xF0` lead byte whose next byte is a continuation
byte below `0x90`.  (Such a byte can never occur in the interior of a valid
multi-byte sequence, whose interior bytes all lie in `0x80`–`0xBF`, so every
position is checked.) -/
def containsOverlong : List Nat → Bool
  | [] => false
  | [b1] => decide (0xC0 ≤ b1 ∧ b1 < 0xC2)
  | b1 :: b2 :: t =>
      decide (0xC0 ≤ b1 ∧ b1 < 0xC2)
      || decide (b1 = 0xE0 ∧ 0x80 ≤ b2 ∧ b2 < 0xA0)
      || decide (b1 = 0xF0 ∧ 0x80 ≤ b2 ∧ b2 < 0x90)
      || containsOverlong (b2 :: t)

/-! Inversion lemmas for the UTF-16 codec model -/

theorem utf16Decode_some_encode :
    ∀ (s cps : List Nat), utf16Decode s = some cps → utf16Encode cps = s
  | [], cps, h => by
      simp only [utf16Decode, Option.some.injEq] at h
      subst h; rfl
  | u :: rest, cps, h => by
      unfold utf16Decode at h
      split at h
      next h1 =>
        rcases Option.map_eq_some'.mp h with ⟨cs, hrec, rfl⟩
        have ih := utf16Decode_some_encode rest cs hrec
        simp only [utf16Encode, utf16EncodeCp, if_pos (show u < 0x10000 by omega), ih,
          List.singleton_append]
      next h1 =>
        split at h
        next h2 =>
          cases rest with
          | nil => simp at h
          | cons l rest2 =>
              dsimp only at h
              split at h
              next h3 =>
                rcases Option.map_eq_some'.mp h with ⟨cs, hrec, rfl⟩
                have ih := utf16Decode_some_encode rest2 cs hrec
                simp only [utf16Encode, utf16EncodeCp]
                rw [if_neg (by omega)]
                simp only [List.cons_append, List.nil_append, ih, List.cons.injEq]
                exact ⟨by omega, by omega, trivial⟩
              next h3 => simp at h
        next h2 => simp at h

theorem utf16Decode_some_scalar :
    ∀ (s cps : List Nat), utf16Decode s = some cps → ∀ cp ∈ cps, IsScalar cp
  | [], cps, h => by
      simp only [utf16Decode, Option.some.injEq] at h
      subst h; simp
  | u :: rest, cps, h => by
      unfold utf16Decode at h
      split at h
      next h1 =>
        rcases Option.map_eq_some'.mp h with ⟨cs, hrec, rfl⟩
        have ih := utf16Decode_some_scalar rest cs hrec
        intro cp hcp
        rcases List.mem_cons.mp hcp with heq | hmem
        · rw [heq]; simp only [IsScalar]; omega
        · exact ih cp hmem
      next h1 =>
        split at h
        next h2 =>
          cases rest with
          | nil => simp at h
          | cons l rest2 =>
              dsimp only at h
              split at h
              next h3 =>
                rcases Option.map_eq_some'.mp h with ⟨cs, hrec, rfl⟩
                have ih := utf16Decode_some_scalar rest2 cs hrec
                intro cp hcp
                rcases List.mem_cons.mp hcp with heq | hmem
                · rw [heq]; simp only [IsScalar]; omega
                · exact ih cp hmem
              next h3 => simp at h
        next h2 => simp at h

theorem utf16Decode_cons_ne_nil (u : Nat) (rest cps : List Nat)
    (h : utf16Decode (u :: rest) = some cps) : cps ≠ [] := by
  unfold utf16Decode at h
  split at h
  next h1 =>
    rcases Option.map_eq_some'.mp h with ⟨cs, hrec, rfl⟩
    simp
  next h1 =>
    split at h
    next h2 =>
      cases rest with
      | nil => simp at h
      | cons l rest2 =>
          dsimp only at h
          split at h
          next h3 =>
            rcases Option.map_eq_some'.mp h with ⟨cs, hrec, rfl⟩
            simp
          next h3 => simp at h
    next h2 => simp at h

theorem utf16Decode_encode :
    ∀ (cps : List Nat), (∀ cp ∈ cps, IsScalar cp) → utf16Decode (utf16Encode cps) = some cps
  | [], _ => rfl
  | cp :: cps, h => by
      have hsc : IsScalar cp := h cp (List.mem_cons_self cp cps)
      simp only [IsScalar] at hsc
      have ih := utf16Decode_encode cps (fun c hc => h c (List.mem_cons_of_mem _ hc))
      simp only [utf16Encode, utf16EncodeCp]
      by_cases hb : cp < 0x10000
      · rw [if_pos hb]
        simp only [List.singleton_append]
        unfold utf16Decode
        rw [if_pos (by omega)]
        rw [ih]
        rfl
      · rw [if_neg hb]
        simp only [List.cons_append, List.nil_append]
        unfold utf16Decode
        rw [if_neg (by omega), if_pos (by omega)]
        dsimp only
        rw [if_pos (by omega), ih]
        simp only [Option.map_some', Option.some.injEq, List.cons.injEq]
        exact ⟨by omega, trivial⟩

/-! Inversion lemmas for the UTF-8 codec model -/

theorem utf8Decode_some_encode :
    ∀ (b cps : List Nat), utf8Decode b = some cps → utf8Encode cps = b
  | [], cps, h => by
      unfold utf8Decode at h
      simp only [Option.some.injEq] at h
      subst h; rfl
  | b1 :: t1, cps, h => by
      unfold utf8Decode at h
      split at h
      next hA =>
        rcases Option.map_eq_some'.mp h with ⟨cs, hrec, rfl⟩
        have ih := utf8Decode_some_encode t1 cs hrec
        simp only [utf8Encode, utf8EncodeCp, if_pos hA, ih, List.singleton_append]
      next hA =>
      split at h
      next hB => simp at h
      next hB =>
      split at h
      next hC =>
        cases t1 with
        | nil => unfold utf8DecodeTail2 at h; simp at h
        | cons b2 t2 =>
            unfold utf8DecodeTail2 at h
            split at h
            next hcont =>
              simp only [IsCont] at hcont
              rcases Option.map_eq_some'.mp h with ⟨cs, hrec, rfl⟩
              have ih := utf8Decode_some_encode t2 cs hrec
              simp only [utf8Encode, utf8EncodeCp]
              rw [if_neg (by omega), if_pos (by omega)]
              simp only [List.cons_append, List.nil_append, ih, List.cons.injEq]
              exact ⟨by omega, by omega, trivial⟩
            next hcont => simp at h
      next hC =>
      split at h
      next hD =>
        cases t1 with
        | nil => unfold utf8DecodeTail3 at h; simp at h
        | cons b2 r =>
        cases r with
        | nil => unfold utf8DecodeTail3 at h; simp at h
        | cons b3 t3 =>
            unfold utf8DecodeTail3 at h
            split at h
            next hcond =>
              obtain ⟨hc2, hc3, hov, hsur⟩ := hcond
              simp only [IsCont] at hc2 hc3
              rcases Option.map_eq_some'.mp h with ⟨cs, hrec, rfl⟩
              have ih := utf8Decode_some_encode t3 cs hrec
              simp only [utf8Encode, utf8EncodeCp]
              rw [if_neg (by omega), if_neg (by omega), if_pos (by omega)]
              simp only [List.cons_append, List.nil_append, ih, List.cons.injEq]
              exact ⟨by omega, by omega, by omega, trivial⟩
            next hcond => simp at h
      next hD =>
      split at h
      next hE =>
        cases t1 with
        | nil => unfold utf8DecodeTail4 at h; simp at h
        | cons b2 r =>
        cases r with
        | nil => unfold utf8DecodeTail4 at h; simp at h
        | cons b3 r2 =>
        cases r2 with
        | nil => unfold utf8DecodeTail4 at h; simp at h
        | cons b4 t4 =>
            unfold utf8DecodeTail4 at h
            split at h
            next hcond =>
              obtain ⟨hc2, hc3, hc4, hov, hmax⟩ := hcond
              simp only [IsCont] at hc2 hc3 hc4
              rcases Option.map_eq_some'.mp h with ⟨cs, hrec, rfl⟩
              have ih := utf8Decode_some_encode t4 cs hrec
              simp only [utf8Encode, utf8EncodeCp]
              rw [if_neg (by omega), if_neg (by omega), if_neg (by omega)]
              simp only [List.cons_append, List.nil_append, ih, List.cons.injEq]
              exact ⟨by omega, by omega, by omega, by omega, trivial⟩
            next hcond => simp at h
      next hE => simp at h

theorem utf8Decode_some_scalar :
    ∀ (b cps : List Nat), utf8Decode b = some cps → ∀ cp ∈ cps, IsScalar cp
  | [], cps, h => by
      unfold utf8Decode at h
      simp only [Option.some.injEq] at h
      subst h; simp
  | b1 :: t1, cps, h => by
      unfold utf8Decode at h
      split at h
      next hA =>
        rcases Option.map_eq_some'.mp h with ⟨cs, hrec, rfl⟩
        have ih := utf8Decode_some_scalar t1 cs hrec
        intro cp hcp
        rcases List.mem_cons.mp hcp with heq | hmem
        · rw [heq]; simp only [IsScalar]; omega
        · exact ih cp hmem
      next hA =>
      split at h
      next hB => simp at h
      next hB =>
      split at h
      next hC =>
        cases t1 with
        | nil => unfold utf8DecodeTail2 at h; simp at h
        | cons b2 t2 =>
            unfold utf8DecodeTail2 at h
            split at h
            next hcont =>
              simp only [IsCont] at hcont
              rcases Option.map_eq_some'.mp h with ⟨cs, hrec, rfl⟩
              have ih := utf8Decode_some_scalar t2 cs hrec
              intro cp hcp
              rcases List.mem_cons.mp hcp with heq | hmem
              · rw [heq]; simp only [IsScalar]; omega
              · exact ih cp hmem
            next hcont => simp at h
      next hC =>
      split at h
      next hD =>
        cases t1 with
        | nil => unfold utf8DecodeTail3 at h; simp at h
        | cons b2 r =>
        cases r with
        | nil => unfold utf8DecodeTail3 at h; simp at h
        | cons b3 t3 =>
            unfold utf8DecodeTail3 at h
            split at h
            next hcond =>
              obtain ⟨hc2, hc3, hov, hsur⟩ := hcond
              simp only [IsCont] at hc2 hc3
              rcases Option.map_eq_some'.mp h with ⟨cs, hrec, rfl⟩
              have ih := utf8Decode_some_scalar t3 cs hrec
              intro cp hcp
              rcases List.mem_cons.mp hcp with heq | hmem
              · rw [heq]; simp only [IsScalar]; omega
              · exact ih cp hmem
            next hcond => simp at h
      next hD =>
      split at h
      next hE =>
        cases t1 with
        | nil => unfold utf8DecodeTail4 at h; simp at h
        | cons b2 r =>
        cases r with
        | nil => unfold utf8DecodeTail4 at h; simp at h
        | cons b3 r2 =>
        cases r2 with
        | nil => unfold utf8DecodeTail4 at h; simp at h
        | cons b4 t4 =>
            unfold utf8DecodeTail4 at h
            split at h
            next hcond =>
              obtain ⟨hc2, hc3, hc4, hov, hmax⟩ := hcond
              simp only [IsCont] at hc2 hc3 hc4
              rcases Option.map_eq_some'.mp h with ⟨cs, hrec, rfl⟩
              have ih := utf8Decode_some_scalar t4 cs hrec
              intro cp hcp
              rcases List.mem_cons.mp hcp with heq | hmem
              · rw [heq]; simp only [IsScalar]; omega
              · exact ih cp hmem
            next hcond => simp at h
      next hE => simp at h

theorem utf8Decode_cons_ne_nil (b1 : Nat) (t1 cps : List Nat)
    (h : utf8Decode (b1 :: t1) = some cps) : cps ≠ [] := by
  unfold utf8Decode at h
  split at h
  next hA =>
    rcases Option.map_eq_some'.mp h with ⟨cs, hrec, rfl⟩
    simp
  next hA =>
  split at h
  next hB => simp at h
  next hB =>
  split at h
  next hC =>
    cases t1 with
    | nil => unfold utf8DecodeTail2 at h; simp at h
    | cons b2 t2 =>
        unfold utf8DecodeTail2 at h
        split at h
        next hcont =>
          rcases Option.map_eq_some'.mp h with ⟨cs, hrec, rfl⟩
          simp
        next hcont => simp at h
  next hC =>
  split at h
  next hD =>
    cases t1 with
    | nil => unfold utf8DecodeTail3 at h; simp at h
    | cons b2 r =>
    cases r with
    | nil => unfold utf8DecodeTail3 at h; simp at h
    | cons b3 t3 =>
        unfold utf8DecodeTail3 at h
        split at h
        next hcond =>
          rcases Option.map_eq_some'.mp h with ⟨cs, hrec, rfl⟩
          simp
        next hcond => simp at h
  next hD =>
  split at h
  next hE =>
    cases t1 with
    | nil => unfold utf8DecodeTail4 at h; simp at h
    | cons b2 r =>
    cases r with
    | nil => unfold utf8DecodeTail4 at h; simp at h
    | cons b3 r2 =>
    cases r2 with
    | nil => unfold utf8DecodeTail4 at h; simp at h
    | cons b4 t4 =>
        unfold utf8DecodeTail4 at h
        split at h
        next hcond =>
          rcases Option.map_eq_some'.mp h with ⟨cs, hrec, rfl⟩
          simp
        next hcond => simp at h
  next hE => simp at h

theorem utf8Decode_encode :
    ∀ (cps : List Nat), (∀ cp ∈ cps, IsScalar cp) → utf8Decode (utf8Encode cps) = some cps
  | [], _ => rfl
  | cp :: cps, h => by
      have hsc : IsScalar cp := h cp (List.mem_cons_self cp cps)
      simp only [IsScalar] at hsc
      have ih := utf8Decode_encode cps (fun c hc => h c (List.mem_cons_of_mem _ hc))
      simp only [utf8Encode, utf8EncodeCp]
      by_cases h1 : cp < 0x80
      · rw [if_pos h1]
        simp only [List.singleton_append]
        unfold utf8Decode
        rw [if_pos h1, ih]
        rfl
      · rw [if_neg h1]
        by_cases h2 : cp < 0x800
        · rw [if_pos h2]
          simp only [List.cons_append, List.nil_append]
          unfold utf8Decode
          rw [if_neg (by omega), if_neg (by omega), if_pos (by omega)]
          unfold utf8DecodeTail2
          rw [if_pos (show IsCont (0x80 + cp % 0x40) by simp only [IsCont]; omega), ih]
          simp only [Option.map_some', Option.some.injEq, List.cons.injEq]
          exact ⟨by omega, trivial⟩
        · rw [if_neg h2]
          by_cases h3 : cp < 0x10000
          · rw [if_pos h3]
            simp only [List.cons_append, List.nil_append]
            unfold utf8Decode
            rw [if_neg (by omega), if_neg (by omega), if_neg (by omega), if_pos (by omega)]
            unfold utf8DecodeTail3
            rw [if_pos ⟨by simp only [IsCont]; omega, by simp only [IsCont]; omega,
              by omega, by omega⟩, ih]
            simp only [Option.map_some', Option.some.injEq, List.cons.injEq]
            exact ⟨by omega, trivial⟩
          · rw [if_neg h3]
            simp only [List.cons_append, List.nil_append]
            unfold utf8Decode
            rw [if_neg (by omega), if_neg (by omega), if_neg (by omega), if_neg (by omega),
              if_pos (by omega)]
            unfold utf8DecodeTail4
            rw [if_pos ⟨by simp only [IsCont]; omega, by simp only [IsCont]; omega,
              by simp only [IsCont]; omega, by omega, by omega⟩, ih]
            simp only [Option.map_some', Option.some.injEq, List.cons.injEq]
            exact ⟨by omega, trivial⟩

/-! Pipeline lemmas: how the converters behave on decodable inputs -/

theorem utf8EncodeCp_ne_nil (cp : Nat) : utf8EncodeCp cp ≠ [] := by
  unfold utf8EncodeCp
  split <;> try split <;> try split
  all_goals simp

theorem utf16EncodeCp_ne_nil (cp : Nat) : utf16EncodeCp cp ≠ [] := by
  unfold utf16EncodeCp
  split <;> simp

theorem utf8Encode_ne_nil (cps : List Nat) (h : cps ≠ []) : utf8Encode cps ≠ [] := by
  cases cps with
  | nil => exact absurd rfl h
  | cons c cs =>
      simp only [utf8Encode]
      intro hco
      exact utf8EncodeCp_ne_nil c (List.append_eq_nil.mp hco).1

theorem utf16Encode_ne_nil (cps : List Nat) (h : cps ≠ []) : utf16Encode cps ≠ [] := by
  cases cps with
  | nil => exact absurd rfl h
  | cons c cs =>
      simp only [utf16Encode]
      intro hco
      exact utf16EncodeCp_ne_nil c (List.append_eq_nil.mp hco).1

theorem wideCharToMultiByte_measure (s cps : List Nat) (h : utf16Decode s = some cps) :
    wideCharToMultiByte s 0 = ((utf8Encode cps).length, []) := by
  unfold wideCharToMultiByte
  rw [h]
  simp

theorem wideCharToMultiByte_fill (s cps : List Nat) (h : utf16Decode s = some cps)
    (hL : (utf8Encode cps).length ≠ 0) :
    wideCharToMultiByte s (utf8Encode cps).length = ((utf8Encode cps).length, utf8Encode cps) := by
  unfold wideCharToMultiByte
  rw [h]
  dsimp only
  rw [if_neg hL, if_pos (Nat.le_refl _)]

theorem multiByteToWideChar_measure (b cps : List Nat) (h : utf8Decode b = some cps) :
    multiByteToWideChar b 0 = ((utf16Encode cps).length, []) := by
  unfold multiByteToWideChar
  rw [h]
  simp

theorem multiByteToWideChar_fill (b cps : List Nat) (h : utf8Decode b = some cps)
    (hL : (utf16Encode cps).length ≠ 0) :
    multiByteToWideChar b (utf16Encode cps).length
      = ((utf16Encode cps).length, utf16Encode cps) := by
  unfold multiByteToWideChar
  rw [h]
  dsimp only
  rw [if_neg hL, if_pos (Nat.le_refl _)]

theorem ToUtf8_eq_of_decode (s cps : List Nat) (hne : s ≠ [])
    (hdec : utf16Decode s = some cps) : ToUtf8 s = some (utf8Encode cps) := by
  have hcps : cps ≠ [] := by
    cases s with
    | nil => exact absurd rfl hne
    | cons u rest => exact utf16Decode_cons_ne_nil u rest cps hdec
  have hL : (utf8Encode cps).length ≠ 0 := by
    simpa [List.length_eq_zero] using utf8Encode_ne_nil cps hcps
  unfold ToUtf8 ToUtf8Traced
  rw [if_neg hne]
  dsimp only
  rw [wideCharToMultiByte_measure s cps hdec]
  dsimp only
  rw [if_neg hL, wideCharToMultiByte_fill s cps hdec hL]
  dsimp only
  unfold toUtf8Finish
  rw [if_neg hL]
  rw [List.drop_eq_nil_of_le (by simp), List.append_nil, List.take_length]

theorem ToUtf16_eq_of_decode (b cps : List Nat) (hne : b ≠ [])
    (hdec : utf8Decode b = some cps) : ToUtf16 b = some (utf16Encode cps) := by
  have hcps : cps ≠ [] := by
    cases b with
    | nil => exact absurd rfl hne
    | cons b1 t1 => exact utf8Decode_cons_ne_nil b1 t1 cps hdec
  have hL : (utf16Encode cps).length ≠ 0 := by
    simpa [List.length_eq_zero] using utf16Encode_ne_nil cps hcps
  unfold ToUtf16 ToUtf16Traced
  rw [if_neg hne]
  dsimp only
  rw [multiByteToWideChar_measure b cps hdec]
  dsimp only
  rw [if_neg hL, multiByteToWideChar_fill b cps hdec hL]
  dsimp only
  unfold toUtf16Finish
  rw [if_neg hL]
  rw [List.take_left]

theorem ToUtf8_none_of_decode_none (s : List Nat) (hne : s ≠ [])
    (hdec : utf16Decode s = none) : ToUtf8 s = none := by
  unfold ToUtf8 ToUtf8Traced
  rw [if_neg hne]
  dsimp only
  unfold wideCharToMultiByte
  rw [hdec]
  simp

theorem ToUtf16_none_of_decode_none (b : List Nat) (hne : b ≠ [])
    (hdec : utf8Decode b = none) : ToUtf16 b = none := by
  unfold ToUtf16 ToUtf16Traced
  rw [if_neg hne]
  dsimp only
  unfold multiByteToWideChar
  rw [hdec]
  simp

/-! Ill-formed inputs: unpaired high surrogates and overlong encodings -/

theorem utf16Decode_eq_none_of_unpairedHigh :
    ∀ (s : List Nat), containsUnpairedHigh s = true → utf16Decode s = none
  | [], h => by simp [containsUnpairedHigh] at h
  | [u], h => by
      simp only [containsUnpairedHigh, decide_eq_true_eq] at h
      unfold utf16Decode
      rw [if_neg (by omega), if_pos (by omega)]
  | u :: l :: rest, h => by
      simp only [containsUnpairedHigh] at h
      split at h
      next hu =>
        split at h
        next hl =>
          have ih := utf16Decode_eq_none_of_unpairedHigh rest h
          unfold utf16Decode
          rw [if_neg (by omega), if_pos hu]
          dsimp only
          rw [if_pos hl, ih]
          rfl
        next hl =>
          unfold utf16Decode
          rw [if_neg (by omega), if_pos hu]
          dsimp only
          rw [if_neg hl]
      next hu =>
        have ih := utf16Decode_eq_none_of_unpairedHigh (l :: rest) h
        unfold utf16Decode
        by_cases h1 : u < 0xD800 ∨ (0xE000 ≤ u ∧ u < 0x10000)
        · rw [if_pos h1, ih]; rfl
        · rw [if_neg h1, if_neg hu]

theorem containsOverlong_cons_cont (c : Nat) (hc : c < 0xC0) (rest : List Nat) :
    containsOverlong (c :: rest) = containsOverlong rest := by
  cases rest with
  | nil =>
      simp only [containsOverlong]
      rw [decide_eq_false (by omega)]
  | cons d t =>
      simp only [containsOverlong]
      rw [decide_eq_false (by omega), decide_eq_false (by omega), decide_eq_false (by omega)]
      simp

theorem utf8Decode_some_overlong :
    ∀ (b cps : List Nat), utf8Decode b = some cps → containsOverlong b = false
  | [], cps, h => rfl
  | b1 :: t1, cps, h => by
      unfold utf8Decode at h
      split at h
      next hA =>
        rcases Option.map_eq_some'.mp h with ⟨cs, hrec, rfl⟩
        have ih := utf8Decode_some_overlong t1 cs hrec
        rw [containsOverlong_cons_cont b1 (by omega) t1]
        exact ih
      next hA =>
      split at h
      next hB => simp at h
      next hB =>
      split at h
      next hC =>
        cases t1 with
        | nil => unfold utf8DecodeTail2 at h; simp at h
        | cons b2 t2 =>
            unfold utf8DecodeTail2 at h
            split at h
            next hcont =>
              simp only [IsCont] at hcont
              rcases Option.map_eq_some'.mp h with ⟨cs, hrec, rfl⟩
              have ih := utf8Decode_some_overlong t2 cs hrec
              simp only [containsOverlong]
              rw [decide_eq_false (by omega), decide_eq_false (by omega),
                decide_eq_false (by omega), containsOverlong_cons_cont b2 (by omega) t2, ih]
              rfl
            next hcont => simp at h
      next hC =>
      split at h
      next hD =>
        cases t1 with
        | nil => unfold utf8DecodeTail3 at h; simp at h
        | cons b2 r =>
        cases r with
        | nil => unfold utf8DecodeTail3 at h; simp at h
        | cons b3 t3 =>
            unfold utf8DecodeTail3 at h
            split at h
            next hcond =>
              obtain ⟨hc2, hc3, hov, hsur⟩ := hcond
              simp only [IsCont] at hc2 hc3
              rcases Option.map_eq_some'.mp h with ⟨cs, hrec, rfl⟩
              have ih := utf8Decode_some_overlong t3 cs hrec
              simp only [containsOverlong]
              rw [decide_eq_false (by omega), decide_eq_false (by omega),
                decide_eq_false (by omega), decide_eq_false (by omega),
                decide_eq_false (by omega), decide_eq_false (by omega),
                containsOverlong_cons_cont b3 (by omega) t3, ih]
              rfl
            next hcond => simp at h
      next hD =>
      split at h
      next hE =>
        cases t1 with
        | nil => unfold utf8DecodeTail4 at h; simp at h
        | cons b2 r =>
        cases r with
        | nil => unfold utf8DecodeTail4 at h; simp at h
        | cons b3 r2 =>
        cases r2 with
        | nil => unfold utf8DecodeTail4 at h; simp at h
        | cons b4 t4 =>
            unfold utf8DecodeTail4 at h
            split at h
            next hcond =>
              obtain ⟨hc2, hc3, hc4, hov, hmax⟩ := hcond
              simp only [IsCont] at hc2 hc3 hc4
              rcases Option.map_eq_some'.mp h with ⟨cs, hrec, rfl⟩
              have ih := utf8Decode_some_overlong t4 cs hrec
              simp only [containsOverlong]
              rw [decide_eq_false (by omega), decide_eq_false (by omega),
                decide_eq_false (by omega), decide_eq_false (by omega),
                decide_eq_false (by omega), decide_eq_false (by omega),
                decide_eq_false (by omega), decide_eq_false (by omega),
                decide_eq_false (by omega), containsOverlong_cons_cont b4 (by omega) t4, ih]
              rfl
            next hcond => simp at h
      next hE => simp at h

/-! Output lengths and the measured counts -/

theorem ToUtf8_length (s out : List Nat) (h : ToUtf8 s = some out) :
    out.length = (wideCharToMultiByte s 0).1 := by
  by_cases hne : s = []
  · subst hne
    rw [show ToUtf8 ([] : List Nat) = some [] from rfl, Option.some.injEq] at h
    subst h
    rfl
  · cases hdec : utf16Decode s with
    | none => rw [ToUtf8_none_of_decode_none s hne hdec] at h; cases h
    | some cps =>
        rw [ToUtf8_eq_of_decode s cps hne hdec, Option.some.injEq] at h
        subst h
        rw [wideCharToMultiByte_measure s cps hdec]

theorem ToUtf16_length (b out : List Nat) (h : ToUtf16 b = some out) :
    out.length = (multiByteToWideChar b 0).1 := by
  by_cases hne : b = []
  · subst hne
    rw [show ToUtf16 ([] : List Nat) = some [] from rfl, Option.some.injEq] at h
    subst h
    rfl
  · cases hdec : utf8Decode b with
    | none => rw [ToUtf16_none_of_decode_none b hne hdec] at h; cases h
    | some cps =>
        rw [ToUtf16_eq_of_decode b cps hne hdec, Option.some.injEq] at h
        subst h
        rw [multiByteToWideChar_measure b cps hdec]

theorem toUtf8Finish_some (L r : Nat) (w : List Nat) (hr : r ≠ 0) :
    ∃ o, toUtf8Finish L r w = some o ∧ o.length = L := by
  have h : toUtf8Finish L r w
      = some ((w ++ (List.replicate L 0).drop w.length).take L) := by
    unfold toUtf8Finish
    rw [if_neg hr]
  refine ⟨_, h, ?_⟩
  simp only [List.length_take, List.length_append, List.length_drop, List.length_replicate]
  omega

theorem ToUtf8_none_of_measure_zero (s : List Nat) (hne : s ≠ [])
    (h : (wideCharToMultiByte s 0).1 = 0) : ToUtf8 s = none := by
  unfold ToUtf8 ToUtf8Traced
  rw [if_neg hne]
  dsimp only
  rw [if_pos h]

theorem ToUtf16_none_of_measure_zero (b : List Nat) (hne : b ≠ [])
    (h : (multiByteToWideChar b 0).1 = 0) : ToUtf16 b = none := by
  unfold ToUtf16 ToUtf16Traced
  rw [if_neg hne]
  dsimp only
  rw [if_pos h]

theorem ToUtf8_ne_nil (s out : List Nat) (hne : s ≠ []) (h : ToUtf8 s = some out) :
    out ≠ [] := by
  cases hdec : utf16Decode s with
  | none => rw [ToUtf8_none_of_decode_none s hne hdec] at h; cases h
  | some cps =>
      rw [ToUtf8_eq_of_decode s cps hne hdec, Option.some.injEq] at h
      subst h
      refine utf8Encode_ne_nil cps ?_
      cases s with
      | nil => exact absurd rfl hne
      | cons u rest => exact utf16Decode_cons_ne_nil u rest cps hdec

theorem ToUtf16_ne_nil (b out : List Nat) (hne : b ≠ []) (h : ToUtf16 b = some out) :
    out ≠ [] := by
  cases hdec : utf8Decode b with
  | none => rw [ToUtf16_none_of_decode_none b hne hdec] at h; cases h
  | some cps =>
      rw [ToUtf16_eq_of_decode b cps hne hdec, Option.some.injEq] at h
      subst h
      refine utf16Encode_ne_nil cps ?_
      cases b with
      | nil => exact absurd rfl hne
      | cons b1 t1 => exact utf8Decode_cons_ne_nil b1 t1 cps hdec

/-! The claims -/

/-- C1: For every well-formed UTF-16 input `s`, `ToUtf8 s` succeeds and
`ToUtf16` of the result is `some s` again; symmetrically, for every
well-formed UTF-8 input `b`, `ToUtf16 b` succeeds and `ToUtf8` of the result
is `some b` again. -/
theorem claim_C1_roundtrip (s b : List Nat)
    (hs : WellFormedUtf16 s) (hb : WellFormedUtf8 b) :
    (∃ out, ToUtf8 s = some out ∧ ToUtf16 out = some s) ∧
    (∃ out, ToUtf16 b = some out ∧ ToUtf8 out = some b) := by
  constructor
  · rcases Option.isSome_iff_exists.mp hs with ⟨cps, hdec⟩
    by_cases hne : s = []
    · subst hne
      exact ⟨[], rfl, rfl⟩
    · have hsc := utf16Decode_some_scalar s cps hdec
      have henc := utf16Decode_some_encode s cps hdec
      have hcps : cps ≠ [] := by
        cases s with
        | nil => exact absurd rfl hne
        | cons u rest => exact utf16Decode_cons_ne_nil u rest cps hdec
      have h8 : ToUtf8 s = some (utf8Encode cps) := ToUtf8_eq_of_decode s cps hne hdec
      have h16 : ToUtf16 (utf8Encode cps) = some (utf16Encode cps) :=
        ToUtf16_eq_of_decode _ cps (utf8Encode_ne_nil cps hcps) (utf8Decode_encode cps hsc)
      exact ⟨utf8Encode cps, h8, by rw [h16, henc]⟩
  · rcases Option.isSome_iff_exists.mp hb with ⟨cps, hdec⟩
    by_cases hne : b = []
    · subst hne
      exact ⟨[], rfl, rfl⟩
    · have hsc := utf8Decode_some_scalar b cps hdec
      have henc := utf8Decode_some_encode b cps hdec
      have hcps : cps ≠ [] := by
        cases b with
        | nil => exact absurd rfl hne
        | cons b1 t1 => exact utf8Decode_cons_ne_nil b1 t1 cps hdec
      have h16 : ToUtf16 b = some (utf16Encode cps) := ToUtf16_eq_of_decode b cps hne hdec
      have h8 : ToUtf8 (utf16Encode cps) = some (utf8Encode cps) :=
        ToUtf8_eq_of_decode _ cps (utf16Encode_ne_nil cps hcps) (utf16Decode_encode cps hsc)
      exact ⟨utf16Encode cps, h16, by rw [h8, henc]⟩

/-- Witness for C1 at the UTF-16 input `[A, high surrogate, low surrogate]`
(U+0041 then U+1F600) and the UTF-8 input for U+5B66. -/
theorem claim_C1_roundtrip_witness :
    (∃ out, ToUtf8 [0x41, 0xD83D, 0xDE00] = some out ∧
      ToUtf16 out = some [0x41, 0xD83D, 0xDE00]) ∧
    (∃ out, ToUtf16 [0xE5, 0xAD, 0xA6] = some out ∧
      ToUtf8 out = some [0xE5, 0xAD, 0xA6]) :=
  claim_C1_roundtrip [0x41, 0xD83D, 0xDE00] [0xE5, 0xAD, 0xA6] (by decide) (by decide)

/-- C2: Every UTF-16 input containing an unpaired high surrogate makes
`ToUtf8` fail with a `ConversionError` (it returns `none`, never a
substituted or truncated string). -/
theorem claim_C2_unpaired_high_rejected (s : List Nat)
    (h : containsUnpairedHigh s = true) : ToUtf8 s = none := by
  have hdec := utf16Decode_eq_none_of_unpairedHigh s h
  cases s with
  | nil => simp [containsUnpairedHigh] at h
  | cons u rest => exact ToUtf8_none_of_decode_none (u :: rest) (by simp) hdec

/-- Witness for C2 at the single-unit input `[0xD800]`. -/
theorem claim_C2_witness :
    containsUnpairedHigh [0xD800] = true ∧ ToUtf8 [0xD800] = none :=
  ⟨by decide, claim_C2_unpaired_high_rejected [0xD800] (by decide)⟩

/-- C3: Every UTF-8 input containing an overlong encoding makes `ToUtf16`
fail with a `ConversionError` rather than decoding it. -/
theorem claim_C3_overlong_rejected (b : List Nat)
    (h : containsOverlong b = true) : ToUtf16 b = none := by
  cases hdec : utf8Decode b with
  | some cps => rw [utf8Decode_some_overlong b cps hdec] at h; cases h
  | none =>
      cases b with
      | nil => simp [containsOverlong] at h
      | cons b1 t1 => exact ToUtf16_none_of_decode_none (b1 :: t1) (by simp) hdec

/-- Witness for C3 at the overlong two-byte input `{0xC0, 0x80}`. -/
theorem claim_C3_witness :
    containsOverlong [0xC0, 0x80] = true ∧ ToUtf16 [0xC0, 0x80] = none :=
  ⟨by decide, claim_C3_overlong_rejected [0xC0, 0x80] (by decide)⟩

/-- C4: Empty input in either direction returns an empty output with no
error and without invoking the underlying codec: no measure call and no fill
call is made. -/
theorem claim_C4_empty_fast_path :
    ToUtf8 [] = some [] ∧ (ToUtf8Traced []).2.measureCalls = 0 ∧
      (ToUtf8Traced []).2.fillCalls = 0 ∧
    ToUtf16 [] = some [] ∧ (ToUtf16Traced []).2.measureCalls = 0 ∧
      (ToUtf16Traced []).2.fillCalls = 0 := by decide

/-- C5 counterexample: A fill result of `1` differs from the measured
length `2`, yet neither converter tail fails: both finalize and return a
string.  (The code only checks `result == 0`.) -/
theorem claim_C5_counterexample :
    (1 : Nat) ≠ 2 ∧ toUtf8Finish 2 1 [0xAB] = some [0xAB, 0] ∧
      toUtf16Finish 2 2 1 [0xAB] = some [0xAB, 0] := by decide

/-- C5 amended: Each converter's fill phase fails with a
`ConversionError` exactly when the fill call reports failure (`result == 0`);
a nonzero fill result different from the measured length is not detected, and
the output is finalized to the measured length regardless of it. -/
theorem claim_C5_amended (L cap r : Nat) (w : List Nat) :
    (toUtf8Finish L r w = none ↔ r = 0) ∧ (toUtf16Finish cap L r w = none ↔ r = 0) := by
  unfold toUtf8Finish toUtf16Finish
  constructor <;> split <;> simp_all

/-- C6 counterexample: For the input `{0xE5, 0xAD, 0xA6}` the measured
UTF-16 code-unit count is `1`, but the writable destination buffer is
requested with capacity `3` (the input's byte length), not `1`. -/
theorem claim_C6_counterexample :
    (multiByteToWideChar [0xE5, 0xAD, 0xA6] 0).1 = 1 ∧
    (ToUtf16Traced [0xE5, 0xAD, 0xA6]).2.getBufferArg = some 3 ∧
    (3 : Nat) ≠ 1 := by decide

/-- C6 amended: In `ToUtf16`'s fill phase, for every non-empty input
that passes the measure phase, the writable destination buffer is requested
with a capacity equal to the input's UTF-8 byte length (`GetBuffer(utf8Length)`,
line 192), while the fill call is passed the measured UTF-16 code-unit count
as its destination size; the buffer is requested once and not resized. -/
theorem claim_C6_amended (b : List Nat) (hne : b ≠ [])
    (hL : (multiByteToWideChar b 0).1 ≠ 0) :
    (ToUtf16Traced b).2.getBufferArg = some b.length ∧
    (ToUtf16Traced b).2.fillDestSize = some (multiByteToWideChar b 0).1 := by
  unfold ToUtf16Traced
  rw [if_neg hne]
  dsimp only
  rw [if_neg hL]
  exact ⟨rfl, rfl⟩

/-- Witness for the amended C6 at the input `{0xE5, 0xAD, 0xA6}`. -/
theorem claim_C6_witness :
    (ToUtf16Traced [0xE5, 0xAD, 0xA6]).2.getBufferArg
        = some ([0xE5, 0xAD, 0xA6] : List Nat).length ∧
    (ToUtf16Traced [0xE5, 0xAD, 0xA6]).2.fillDestSize
        = some (multiByteToWideChar [0xE5, 0xAD, 0xA6] 0).1 :=
  claim_C6_amended [0xE5, 0xAD, 0xA6] (by decide) (by decide)

/-- C7: `ToUtf8` of the single-code-unit input `[0x5B66]` succeeds and
yields exactly the three bytes `{0xE5, 0xAD, 0xA6}`. -/
theorem claim_C7_kanji_length : ToUtf8 [0x5B66] = some [0xE5, 0xAD, 0xA6] := by decide

/-- C8: Every code point `cp` in U+10000–U+10FFFF, presented to `ToUtf8`
as its high/low surrogate pair, converts to its exact 4-byte UTF-8 sequence,
and `ToUtf16` of those 4 bytes reproduces the original surrogate pair (high
surrogate first, then low surrogate). -/
theorem claim_C8_supplementary (cp : Nat) (h1 : 0x10000 ≤ cp) (h2 : cp < 0x110000) :
    ToUtf8 [0xD800 + (cp - 0x10000) / 0x400, 0xDC00 + (cp - 0x10000) % 0x400]
      = some [0xF0 + cp / 0x40000, 0x80 + cp / 0x1000 % 0x40,
              0x80 + cp / 0x40 % 0x40, 0x80 + cp % 0x40] ∧
    ToUtf16 [0xF0 + cp / 0x40000, 0x80 + cp / 0x1000 % 0x40,
             0x80 + cp / 0x40 % 0x40, 0x80 + cp % 0x40]
      = some [0xD800 + (cp - 0x10000) / 0x400, 0xDC00 + (cp - 0x10000) % 0x400] := by
  have hsc : ∀ c ∈ [cp], IsScalar c := by
    intro c hc
    simp only [List.mem_singleton] at hc
    subst hc
    simp only [IsScalar]
    omega
  have henc16 : utf16EncodeCp cp
      = [0xD800 + (cp - 0x10000) / 0x400, 0xDC00 + (cp - 0x10000) % 0x400] := by
    unfold utf16EncodeCp
    rw [if_neg (by omega)]
  have henc8 : utf8EncodeCp cp
      = [0xF0 + cp / 0x40000, 0x80 + cp / 0x1000 % 0x40,
         0x80 + cp / 0x40 % 0x40, 0x80 + cp % 0x40] := by
    unfold utf8EncodeCp
    rw [if_neg (by omega), if_neg (by omega), if_neg (by omega)]
  have h16enc : utf16Encode [cp] = utf16EncodeCp cp := by
    simp [utf16Encode]
  have h8enc : utf8Encode [cp] = utf8EncodeCp cp := by
    simp [utf8Encode]
  have hdec16 : utf16Decode (utf16EncodeCp cp) = some [cp] := by
    rw [← h16enc]
    exact utf16Decode_encode [cp] hsc
  have hdec8 : utf8Decode (utf8EncodeCp cp) = some [cp] := by
    rw [← h8enc]
    exact utf8Decode_encode [cp] hsc
  constructor
  · rw [← henc16,
      ToUtf8_eq_of_decode (utf16EncodeCp cp) [cp] (by rw [henc16]; simp) hdec16,
      h8enc, henc8]
  · rw [← henc8,
      ToUtf16_eq_of_decode (utf8EncodeCp cp) [cp] (by rw [henc8]; simp) hdec8,
      h16enc, henc16]

/-- Witness for C8 at U+1F600: the surrogate pair `[0xD83D, 0xDE00]` and the
4-byte sequence `{0xF0, 0x9F, 0x98, 0x80}`. -/
theorem claim_C8_witness :
    ToUtf8 [0xD83D, 0xDE00] = some [0xF0, 0x9F, 0x98, 0x80] ∧
    ToUtf16 [0xF0, 0x9F, 0x98, 0x80] = some [0xD83D, 0xDE00] := by
  have h := claim_C8_supplementary 0x1F600 (by decide) (by decide)
  simpa using h

/-- C9: On success the returned string's finalized length equals the
measure phase's value, in both directions; and the `ToUtf8` finalization
produces a string of exactly the measured length for any nonzero fill result
(the fill call's value is not used for the finalization). -/
theorem claim_C9_finalized_length (s b out8 out16 w : List Nat) (L r : Nat)
    (h8 : ToUtf8 s = some out8) (h16 : ToUtf16 b = some out16) (hr : r ≠ 0) :
    out8.length = (wideCharToMultiByte s 0).1 ∧
    out16.length = (multiByteToWideChar b 0).1 ∧
    ∃ o, toUtf8Finish L r w = some o ∧ o.length = L :=
  ⟨ToUtf8_length s out8 h8, ToUtf16_length b out16 h16, toUtf8Finish_some L r w hr⟩

/-- Witness for C9 at the inputs `[0x41]` and `[0x42]`, and the finalization
at measured length 5 with fill result 7. -/
theorem claim_C9_witness :
    ([0x41] : List Nat).length = (wideCharToMultiByte [0x41] 0).1 ∧
    ([0x42] : List Nat).length = (multiByteToWideChar [0x42] 0).1 ∧
    (∃ o, toUtf8Finish 5 7 [1, 2, 3] = some o ∧ o.length = 5) :=
  claim_C9_finalized_length [0x41] [0x42] [0x41] [0x42] [1, 2, 3] 5 7
    (by decide) (by decide) (by decide)

/-- C10: On success the output is empty iff the input is empty, in both
directions; and for a non-empty input a measure-phase result of zero is
treated as failure: the converter throws (`none`). -/
theorem claim_C10_empty_iff_empty (s b s2 b2 out8 out16 : List Nat)
    (h8 : ToUtf8 s = some out8) (h16 : ToUtf16 b = some out16)
    (hs2 : s2 ≠ []) (hmz8 : (wideCharToMultiByte s2 0).1 = 0)
    (hb2 : b2 ≠ []) (hmz16 : (multiByteToWideChar b2 0).1 = 0) :
    (out8 = [] ↔ s = []) ∧ (out16 = [] ↔ b = []) ∧
    ToUtf8 s2 = none ∧ ToUtf16 b2 = none := by
  refine ⟨⟨?_, ?_⟩, ⟨?_, ?_⟩, ToUtf8_none_of_measure_zero s2 hs2 hmz8,
    ToUtf16_none_of_measure_zero b2 hb2 hmz16⟩
  · intro ho
    by_contra hsne
    exact ToUtf8_ne_nil s out8 hsne h8 ho
  · intro hse
    subst hse
    rw [show ToUtf8 ([] : List Nat) = some [] from rfl, Option.some.injEq] at h8
    exact h8.symm
  · intro ho
    by_contra hbne
    exact ToUtf16_ne_nil b out16 hbne h16 ho
  · intro hbe
    subst hbe
    rw [show ToUtf16 ([] : List Nat) = some [] from rfl, Option.some.injEq] at h16
    exact h16.symm

/-- Witness for C10 at the successful inputs `[0x41]`, `[0x42]` and the
measure-failing non-empty inputs `[0xD800]` and `[0x80]`. -/
theorem claim_C10_witness :
    (([0x41] : List Nat) = [] ↔ ([0x41] : List Nat) = []) ∧
    (([0x42] : List Nat) = [] ↔ ([0x42] : List Nat) = []) ∧
    ToUtf8 [0xD800] = none ∧ ToUtf16 [0x80] = none :=
  claim_C10_empty_iff_empty [0x41] [0x42] [0xD800] [0x80] [0x41] [0x42]
    (by decide) (by decide) (by decide) (by decide) (by decide) (by decide)

end UnicodeConvAtl
